import Mathlib

set_option maxHeartbeats 1000000

/-!
Shallow embedding of the dqlx compilation/decoding core
(src/query_operation.go and src/unnamed/part_000) and proofs about it.
Errors are modelled by their message string (Go `error`); a Go panic is
modelled by `Option.none` at the function where it can occur.
-/

/-- Error values are modelled by their message string (Go `error`). -/
abbrev Err := String

/-- Shallow model of Go `time.Time`, restricted to the UTC location, with
broken-down calendar fields; the instant is identified with its fields. -/
structure GoTime where
  year : Nat
  month : Nat
  day : Nat
  hour : Nat
  minute : Nat
  sec : Nat
  nsec : Nat
deriving DecidableEq

/-- A type-erased Go value (`interface\x7b\x7d`) as it occurs in compiled
argument lists.  Floating-point carriers keep only their printed form
(their `%v` rendering), since floating point itself is out of scope;
`other` covers every remaining dynamic type, keeping its printed form. -/
inductive GoValue where
  | str (s : String)
  | int (i : Int)
  | int8 (i : Int)
  | int16 (i : Int)
  | int32 (i : Int)
  | int64 (i : Int)
  | float32 (printed : String)
  | float64 (printed : String)
  | bool (b : Bool)
  | time (t : GoTime)
  | ptrTime (t : GoTime)
  | other (printed : String)
deriving DecidableEq

/-- Model of `goTypeToDQLType` (src/query_operation.go): the runtime type
switch mapping a value category to its DQL wire type.  The switch lists
`int, int8, int32, int64` but not `int16`, so `int16` falls through to the
default case. -/
def goTypeToDQLType : GoValue → String
  | .str _ => "string"
  | .int _ | .int8 _ | .int32 _ | .int64 _ => "int"
  | .float32 _ | .float64 _ => "float"
  | .bool _ => "bool"
  | .time _ | .ptrTime _ => "datetime"
  | _ => "string"

/-- The decimal digit character for `k`, as printed by `%02d`/`%04d`. -/
def decDigit (k : Nat) : Char := Char.ofNat (48 + k)

/-- Two-digit zero-padded decimal rendering (Go `%02d` for values below 100). -/
def pad2 (n : Nat) : List Char := [decDigit (n / 10 % 10), decDigit (n % 10)]

/-- Four-digit zero-padded decimal rendering (Go `%04d` for values below 10000). -/
def pad4 (n : Nat) : List Char :=
  [decDigit (n / 1000 % 10), decDigit (n / 100 % 10), decDigit (n / 10 % 10), decDigit (n % 10)]

/-- Model of Go `time.Time.Format(time.RFC3339)` for a UTC time: second
precision (the fractional part of the second is not printed) and a
trailing `Z`. -/
def formatRFC3339 (t : GoTime) : String :=
  ⟨pad4 t.year ++ '-' :: pad2 t.month ++ '-' :: pad2 t.day ++
   'T' :: pad2 t.hour ++ ':' :: pad2 t.minute ++ ':' :: pad2 t.sec ++ ['Z']⟩

/-- Decimal digit value of a character, `none` when it is not a digit. -/
def digitVal (c : Char) : Option Nat :=
  if '0' ≤ c ∧ c ≤ '9' then some (c.toNat - 48) else none

/-- Consume two decimal digits from the front, returning their value. -/
def digits2 : List Char → Option (Nat × List Char)
  | c1 :: c2 :: rest => do
    let d1 ← digitVal c1
    let d2 ← digitVal c2
    pure (d1 * 10 + d2, rest)
  | _ => none

/-- Consume one expected character from the front. -/
def expectChar (c : Char) : List Char → Option (List Char)
  | d :: rest => if d = c then some rest else none
  | [] => none

/-- Consume two decimal digits and then one expected separator character. -/
def field2 (sep : Char) (l : List Char) : Option (Nat × List Char) :=
  match digits2 l with
  | none => none
  | some (v, l) =>
    match expectChar sep l with
    | none => none
    | some l => some (v, l)

/-- Model of Go `time.Parse(time.RFC3339, s)` restricted to the shape the
formatter of this model emits: `YYYY-MM-DDTHH:MM:SSZ` with field range
checks (an approximation of the calendar validation Go performs); any
other shape is a parse error (`none`). -/
def parseRFC3339 (s : String) : Option GoTime :=
  match digits2 s.data with
  | none => none
  | some (y12, l) =>
    match field2 '-' l with
    | none => none
    | some (y34, l) =>
      match field2 '-' l with
      | none => none
      | some (mo, l) =>
        match field2 'T' l with
        | none => none
        | some (d, l) =>
          match field2 ':' l with
          | none => none
          | some (h, l) =>
            match field2 ':' l with
            | none => none
            | some (mi, l) =>
              match field2 'Z' l with
              | none => none
              | some (se, l) =>
                if l = [] ∧ 1 ≤ mo ∧ mo ≤ 12 ∧ 1 ≤ d ∧ d ≤ 31 ∧
                    h ≤ 23 ∧ mi ≤ 59 ∧ se ≤ 59 then
                  some ⟨y12 * 100 + y34, mo, d, h, mi, se, 0⟩
                else
                  none

/-- Printed form of a value for the variable map, model of `toVariableValue`
(src/query_operation.go): `time.Time` values use the RFC3339 format,
everything else its Go `%v` rendering. -/
def toVariableValue : GoValue → String
  | .time t => formatRFC3339 t
  | .ptrTime t => formatRFC3339 t
  | .str s => s
  | .int i | .int8 i | .int16 i | .int32 i | .int64 i => toString i
  | .float32 p | .float64 p => p
  | .bool b => if b then "true" else "false"
  | .other p => p

/-- Model of the `Operation` interface (src/query_operation.go): a compilable
unit is characterized by its name (`GetName`) and its compile outcome
(`ToDQL`: text fragment, positional argument values, or an error). -/
structure Operation where
  name : String
  dql : Except Err (String × List GoValue)

/-- Parsed JSON values as used by the response-decoder model. -/
inductive Json where
  | null
  | str (s : String)
  | num (printed : String)
  | bool (b : Bool)
  | obj (fields : List (String × Json))
  | arr (elems : List Json)

/-- A caller-supplied decode destination, characterized by its decode
outcome on the JSON value selected for it (this models the external
`mapstructure` decode into an arbitrary Go pointer). -/
def DecodeDest := Json → Except Err Unit

/-- Model of `QueryBuilder` restricted to the fields this core reads: the
root operation, the auxiliary variable operations (the source stores
sub-builders in its `variables` field, of which only the root operation is
ever read, modelled here by the field `vars`), and
the optional decode destination.  Modelled from the spec: the builder
carries a name, exposed as the name of its root operation, and the `Name`
method replaces it. -/
structure QueryBuilder where
  rootEdge : Operation
  vars : List Operation
  unmarshalInto : Option DecodeDest := none

/-- Modelled from the spec: `QueryBuilder.Name` is not under src/; renaming
a builder replaces its (root) name. -/
def QueryBuilder.Name (q : QueryBuilder) (s : String) : QueryBuilder :=
  { q with rootEdge := { q.rootEdge with name := s } }

def ensureUniqueQueryNamesAux : List QueryBuilder → Nat → List String → List QueryBuilder
  | [], _, _ => []
  | q :: rest, index, queryNames =>
    let q := if q.rootEdge.name ∈ queryNames
      then q.Name (q.rootEdge.name ++ "_" ++ toString index) else q
    q :: ensureUniqueQueryNamesAux rest (index + 1) (q.rootEdge.name :: queryNames)

/-- Model of `ensureUniqueQueryNames` (src/query_operation.go): scan in
order; an entry whose name is already recorded is renamed by appending its
positional index; the (possibly renamed) name is then recorded. -/
def ensureUniqueQueryNames (queries : List QueryBuilder) : List QueryBuilder :=
  ensureUniqueQueryNamesAux queries 0 []

def countMarkers : List Char → Nat
  | [] => 0
  | [_] => 0
  | c1 :: c2 :: rest =>
    if c1 = '?' ∧ c2 = '?' then countMarkers rest + 1 else countMarkers (c2 :: rest)

def replacePlaceholdersAux (t : Nat → GoValue → String) :
    List Char → List GoValue → Nat → Option (List Char × List (Nat × GoValue))
  | [], _, _ => some ([], [])
  | [c], _, _ => some ([c], [])
  | c1 :: c2 :: rest, args, i =>
    if c1 = '?' ∧ c2 = '?' then
      match args[i]? with
      | none => none
      | some a =>
        match replacePlaceholdersAux t rest args (i + 1) with
        | none => none
        | some (out, vars) => some ((t i a).data ++ out, (i, a) :: vars)
    else
      match replacePlaceholdersAux t (c2 :: rest) args i with
      | none => none
      | some (out, vars) => some (c1 :: out, vars)

/-- Model of `replacePlaceholders` (src/query_operation.go): scan for `??`
markers left to right, replace the i-th marker by `transform i args[i]` and
record `variables[i] = args[i]`; indexing `args` past its end (a Go panic)
is modelled by `none`. -/
def replacePlaceholders (query : String) (args : List GoValue)
    (transform : Nat → GoValue → String) : Option (String × List (Nat × GoValue)) :=
  match replacePlaceholdersAux transform query.data args 0 with
  | none => none
  | some (out, vars) => some (⟨out⟩, vars)

/-- Modelled from the spec: `getSortedVariables` is not under src/ (only
its caller is); section 4.2 of the spec says "The final named-reference
list is sorted by index", so it returns the keys of the raw variable map
sorted ascending. -/
def getSortedVariables (raw : List (Nat × GoValue)) : List Nat :=
  List.insertionSort (· ≤ ·) (raw.map Prod.fst)

/-- Go map indexing on the raw variable map, with the `nil` interface as
the missing-key zero value. -/
def lookupRaw (raw : List (Nat × GoValue)) (k : Nat) : GoValue :=
  match raw.find? (fun p => p.1 = k) with
  | some p => p.2
  | none => .other "<nil>"

/-- Model of `toVariables` (src/query_operation.go).  Note the source reads
the variable value at the loop position `index` but the wire type at the
sorted key `placeholderName`; the pair `p` below is `(index, placeholderName)`. -/
def toVariables (raw : List (Nat × GoValue)) : List (String × String) × List String :=
  let queryPlaceholderNames := getSortedVariables raw
  (queryPlaceholderNames.enum.map fun p =>
      ("$" ++ toString p.2, toVariableValue (lookupRaw raw p.1)),
   queryPlaceholderNames.enum.map fun p =>
      "$" ++ toString p.2 ++ ":" ++ goTypeToDQLType (lookupRaw raw p.2))

/-- Model of `addStatement` together with its wrapper `addOperation`
(src/query_operation.go): compile each block in order, accumulating the
texts and the concatenated arguments; the first error aborts. -/
def addStatement : List Operation → Except Err (List String × List GoValue)
  | [] => .ok ([], [])
  | block :: rest =>
    match block.dql with
    | .error e => .error e
    | .ok (statement, queryArg) =>
      match addStatement rest with
      | .error e => .error e
      | .ok (statements, args) => .ok (statement :: statements, queryArg ++ args)

/-- ASCII model of `strings.ToLower` (Go lower-cases Unicode letters; the
core `Char.toLower` covers the ASCII range). -/
def goToLower (s : String) : String := ⟨s.data.map Char.toLower⟩

/-- ASCII model of the Go `isSeparator` predicate used by `strings.Title`:
ASCII alphanumerics and the underscore are not separators, every other
character is. -/
def goIsSeparator (c : Char) : Bool :=
  !(('0' ≤ c ∧ c ≤ '9') ∨ ('a' ≤ c ∧ c ≤ 'z') ∨ ('A' ≤ c ∧ c ≤ 'Z') ∨ c = '_')

def goTitleAux : Bool → List Char → List Char
  | _, [] => []
  | prevSep, c :: rest =>
    (if prevSep then c.toUpper else c) :: goTitleAux (goIsSeparator c) rest

/-- ASCII model of the (deprecated) `strings.Title`: upper-case every
character that follows a separator (the scan starts in separator state,
Go initializes `prev` to a space); underscores and digits are
non-separators, so a letter after them is left unchanged. -/
def goTitle (s : String) : String := ⟨goTitleAux true s.data⟩

/-- Model of the `queryOperation` grammar value (src/query_operation.go). -/
structure queryOperation where
  operations : List Operation
  vars : List Operation

/-- The transform passed to `replacePlaceholders` by `ToDQL`: the i-th
marker becomes the named reference `$i`. -/
def dollarTransform : Nat → GoValue → String := fun index _ => "$" ++ toString index

/-- Model of `queryOperation.ToDQL` (src/query_operation.go), returning the
Go triple (query, variables, error); `none` for the variable map models the
Go `nil` map on the error path.  The outer `Option` is `none` exactly when
`replacePlaceholders` would panic. -/
def queryOperation.ToDQL (grammar : queryOperation) :
    Option (String × Option (List (String × String)) × Option Err) :=
  let blocNames := grammar.operations.map fun block => goTitle (goToLower block.name)
  let queryName := String.intercalate "_" blocNames
  match addStatement grammar.vars with
  | .error e => some ("", none, some e)
  | .ok (vstatements, vargs) =>
    match addStatement grammar.operations with
    | .error e => some ("", none, some e)
    | .ok (ostatements, oargs) =>
      let statements := vstatements ++ ostatements
      let args := vargs ++ oargs
      let innerQuery := String.intercalate " " statements
      match replacePlaceholders innerQuery args dollarTransform with
      | none => none
      | some (query, rawVariables) =>
        let (vars, placeholders) := toVariables rawVariables
        some ("query " ++ queryName ++ "(" ++ String.intercalate ", " placeholders ++
              ") \x7b " ++ query ++ " \x7d", some vars, none)

/-- Model of `QueriesToDQL` (src/query_operation.go): enforce unique names,
then collect every root operation and, per query, every auxiliary variable
operation, and compile the merged grammar. -/
def QueriesToDQL (queries : List QueryBuilder) :
    Option (String × Option (List (String × String)) × Option Err) :=
  let queries := ensureUniqueQueryNames queries
  queryOperation.ToDQL
    { operations := queries.map (fun q => q.rootEdge)
    , vars := (queries.map (fun q => q.vars)).flatten }

/-- Model of `api.Mutation` restricted to the fields this repository sets;
the JSON payload bytes are `Option String` (`nil` bytes versus marshalled
text). -/
structure ApiMutation where
  setJson : Option String
  deleteJson : Option String
  cond : String
  commitNow : Bool
deriving DecidableEq

/-- Model of `api.Request` restricted to the fields this repository sets. -/
structure ApiRequest where
  query : String
  reqVars : Option (List (String × String))
  readOnly : Bool
  bestEffort : Bool
  mutations : List ApiMutation
  commitNow : Bool
deriving DecidableEq

/-- Model of `MutationBuilder` restricted to the fields the executor reads:
the optional condition operation, the set/delete payloads characterized by
their JSON marshal outcome (marshalling arbitrary caller data is external
to this core), and the attached query. -/
structure MutationBuilder where
  condition : Option Operation
  setData : Option (Except Err String)
  delData : Option (Except Err String)
  query : QueryBuilder

/-- Model of `mutationData` (src/unnamed/part_000): marshal the set payload
then the delete payload, aborting on the first failure; an absent payload
yields `nil` bytes. -/
def mutationData (mutation : MutationBuilder) : Except Err (Option String × Option String) :=
  match mutation.setData with
  | some (.error e) => .error e
  | some (.ok setBytes) =>
    match mutation.delData with
    | some (.error e) => .error e
    | some (.ok deleteBytes) => .ok (some setBytes, some deleteBytes)
    | none => .ok (some setBytes, none)
  | none =>
    match mutation.delData with
    | some (.error e) => .error e
    | some (.ok deleteBytes) => .ok (none, some deleteBytes)
    | none => .ok (none, none)

/-- Model of the per-unit loop of `DGoExecutor.ExecuteMutations`
(src/unnamed/part_000): compile the condition (the compiled text is kept,
its argument values are dropped), marshal the payloads, and build one
`api.Mutation` per unit; the first error aborts. -/
def buildMutationRequests (commitNow : Bool) :
    List MutationBuilder → Except Err (List ApiMutation)
  | [] => .ok []
  | mutation :: rest =>
    let conditionResult : Except Err String :=
      match mutation.condition with
      | none => .ok ""
      | some c =>
        match c.dql with
        | .error e => .error e
        | .ok (conditionDql, _args) => .ok conditionDql
    match conditionResult with
    | .error e => .error e
    | .ok condition =>
      match mutationData mutation with
      | .error e => .error e
      | .ok (setData, deleteData) =>
        match buildMutationRequests commitNow rest with
        | .error e => .error e
        | .ok restRequests =>
          .ok ({ setJson := setData, deleteJson := deleteData, cond := condition,
                 commitNow := commitNow } :: restRequests)

/-- Modelled from the spec: `IsEmptyQuery` is not under src/ (only its
caller is); section 4.4 of the spec says the assembled text is cleared when
it is "semantically empty (no root operations)", so this reports whether
everything after the first opening brace is spaces or braces (and is true
in particular for the empty string). -/
def IsEmptyQuery (query : String) : Bool :=
  ((query.data.dropWhile (fun c => c ≠ '\x7b')).drop 1).all fun c => c = ' ' || c = '\x7d'

/-- Outcome of the request-assembly part of `ExecuteMutations`: an error
returned to the caller, a Go panic, or the assembled wire request. -/
inductive ExecOutcome where
  | failed (e : Err)
  | panicked
  | assembled (request : ApiRequest)
deriving DecidableEq

/-- Model of the request-assembly portion of `DGoExecutor.ExecuteMutations`
(src/unnamed/part_000): build one mutation record per unit (condition and
marshal errors abort), then compile the attached queries and clear a
semantically empty query text.  As in the source, the error value returned
by `QueriesToDQL` is bound but never examined before being overwritten.
Transaction execution is external; `tnxPresent` models `executor.tnx != nil`. -/
def executeMutationsAssemble (tnxPresent readOnly bestEffort : Bool)
    (mutations : List MutationBuilder) : ExecOutcome :=
  match buildMutationRequests (!tnxPresent) mutations with
  | .error e => .failed e
  | .ok mutationRequests =>
    match QueriesToDQL (mutations.map (fun m => m.query)) with
    | none => .panicked
    | some (query, queryVars, _err) =>
      let cleared := IsEmptyQuery query
      .assembled
        { query := if cleared then "" else query
          reqVars := if cleared then none else queryVars
          readOnly := readOnly
          bestEffort := bestEffort
          mutations := mutationRequests
          commitNow := !tnxPresent }

/-- Model of `api.Response`: the raw JSON body, characterized by its parse
outcome (a parse error, or the fields of the top-level object). -/
structure ApiResponse where
  json : Except Err (List (String × Json))

/-- Model of the `Response` type (src/unnamed/part_000). -/
structure Response where
  Raw : ApiResponse
  dataKeyPath : String

/-- One-level key selection on the parsed top-level object; a missing key
yields the JSON `null` (the Go `nil` map value). -/
def lookupJson (values : List (String × Json)) (key : String) : Json :=
  match values.find? (fun p => p.1 = key) with
  | some p => p.2
  | none => .null

/-- Model of `Response.Unmarshal` (src/unnamed/part_000) for a destination
characterized by its decode outcome: parse the raw body, select the
key-path value (one level; the whole object when the path is empty), and
decode into the destination. -/
def Response.Unmarshal (response : Response) (dest : DecodeDest) : Except Err Unit :=
  match response.Raw.json with
  | .error e => .error e
  | .ok values =>
    if response.dataKeyPath ≠ "" then dest (lookupJson values response.dataKeyPath)
    else dest (.obj values)

/-- The decode loop of `toResponse`: decode each destination in order using
the query name as key path, returning the first failure. -/
def toResponseLoop (resp : ApiResponse) : List QueryBuilder → Except Err Unit
  | [] => .ok ()
  | queryBuilder :: rest =>
    match queryBuilder.unmarshalInto with
    | none => toResponseLoop resp rest
    | some dest =>
      match Response.Unmarshal { Raw := resp, dataKeyPath := queryBuilder.rootEdge.name } dest with
      | .error e => .error e
      | .ok _ => toResponseLoop resp rest

/-- Model of `DGoExecutor.toResponse` (src/unnamed/part_000): pick the data
key path (the name of the single query, else empty), re-apply the
unique-name pass, and decode each destination in order, returning the first
failure. -/
def toResponse (resp : ApiResponse) (queries : List QueryBuilder) : Except Err Response :=
  let dataPathKey :=
    match queries with
    | [q] => q.rootEdge.name
    | _ => ""
  let queryResponse : Response := { Raw := resp, dataKeyPath := dataPathKey }
  match toResponseLoop resp (ensureUniqueQueryNames queries) with
  | .error e => .error e
  | .ok _ => .ok queryResponse

/-! ### Specification-side helpers and lemmas for the marker machinery -/

/-- The pieces of a text between successive `??` markers, scanned left to
right (always one more piece than there are markers). -/
def splitMarkers : List Char → List (List Char)
  | [] => [[]]
  | [c] => [[c]]
  | c1 :: c2 :: rest =>
    if c1 = '?' ∧ c2 = '?' then [] :: splitMarkers rest
    else
      match splitMarkers (c2 :: rest) with
      | [] => [[c1]]
      | p :: ps => (c1 :: p) :: ps

/-- Interleave the pieces with the named references produced by the
transform at successive indices. -/
def interleaveParts (t : Nat → GoValue → String) (args : List GoValue) :
    List (List Char) → Nat → List Char
  | [], _ => []
  | [p], _ => p
  | p :: ps, i => p ++ (t i (args.getD i (.other "<nil>"))).data ++ interleaveParts t args ps (i + 1)

/-- The variable table the scan assigns: indices `i, i+1, …, i+n-1` paired
with the argument at that index. -/
def specVars (args : List GoValue) : Nat → Nat → List (Nat × GoValue)
  | _, 0 => []
  | i, n + 1 => (i, args.getD i (.other "<nil>")) :: specVars args (i + 1) n

theorem splitMarkers_ne_nil (cs : List Char) : splitMarkers cs ≠ [] := by
  induction cs using countMarkers.induct with
  | case1 => simp [splitMarkers]
  | case2 c => simp [splitMarkers]
  | case3 c1 c2 rest h ih => simp [splitMarkers, h]
  | case4 c1 c2 rest h ih =>
    simp only [splitMarkers, if_neg h]
    cases hs : splitMarkers (c2 :: rest) with
    | nil => simp
    | cons p ps => simp

theorem replacePlaceholdersAux_eq_some (t : Nat → GoValue → String)
    (cs : List Char) (args : List GoValue) (i : Nat)
    (h : i + countMarkers cs ≤ args.length) :
    replacePlaceholdersAux t cs args i =
      some (interleaveParts t args (splitMarkers cs) i, specVars args i (countMarkers cs)) := by
  induction cs using countMarkers.induct generalizing i with
  | case1 =>
    simp [replacePlaceholdersAux, splitMarkers, interleaveParts, countMarkers, specVars]
  | case2 c =>
    simp [replacePlaceholdersAux, splitMarkers, interleaveParts, countMarkers, specVars]
  | case3 c1 c2 rest hm ih =>
    have hcount : countMarkers (c1 :: c2 :: rest) = countMarkers rest + 1 := by
      obtain ⟨h1, h2⟩ := hm
      subst h1; subst h2
      simp [countMarkers]
    rw [hcount] at h
    have hi : i < args.length := by omega
    have hget : args[i]? = some args[i] := List.getElem?_eq_getElem hi
    obtain ⟨h1, h2⟩ := hm
    subst h1; subst h2
    rw [replacePlaceholdersAux, if_pos ⟨rfl, rfl⟩, hget, ih (i + 1) (by omega)]
    rw [hcount, splitMarkers, if_pos ⟨rfl, rfl⟩]
    have hsp := splitMarkers_ne_nil rest
    cases hs : splitMarkers rest with
    | nil => exact absurd hs hsp
    | cons p ps =>
      simp only [interleaveParts, specVars]
      cases ps with
      | nil => simp [interleaveParts, List.getD_eq_getElem?_getD, hget]
      | cons p2 ps2 => simp [interleaveParts, List.getD_eq_getElem?_getD, hget]
  | case4 c1 c2 rest hm ih =>
    have hcount : countMarkers (c1 :: c2 :: rest) = countMarkers (c2 :: rest) := by
      rw [countMarkers, if_neg hm]
    rw [hcount] at h
    rw [replacePlaceholdersAux, if_neg hm, ih i h]
    rw [hcount, splitMarkers, if_neg hm]
    have hsp := splitMarkers_ne_nil (c2 :: rest)
    cases hs : splitMarkers (c2 :: rest) with
    | nil => exact absurd hs hsp
    | cons p ps =>
      cases ps with
      | nil => simp [interleaveParts]
      | cons p2 ps2 => simp [interleaveParts]

theorem replacePlaceholdersAux_eq_none (t : Nat → GoValue → String)
    (cs : List Char) (args : List GoValue) (i : Nat)
    (hn : countMarkers cs ≠ 0) (h : args.length < i + countMarkers cs) :
    replacePlaceholdersAux t cs args i = none := by
  induction cs using countMarkers.induct generalizing i with
  | case1 => simp [countMarkers] at hn
  | case2 c => simp [countMarkers] at hn
  | case3 c1 c2 rest hm ih =>
    obtain ⟨h1, h2⟩ := hm
    subst h1; subst h2
    have hcount : countMarkers ('?' :: '?' :: rest) = countMarkers rest + 1 := by
      simp [countMarkers]
    rw [hcount] at h
    rw [replacePlaceholdersAux, if_pos ⟨rfl, rfl⟩]
    by_cases hi : i < args.length
    · have hget : args[i]? = some args[i] := List.getElem?_eq_getElem hi
      rw [hget]
      have hcr : countMarkers rest ≠ 0 := by omega
      rw [ih (i + 1) hcr (by omega)]
    · have hget : args[i]? = none := by
        rw [List.getElem?_eq_none_iff]
        omega
      rw [hget]
  | case4 c1 c2 rest hm ih =>
    have hcount : countMarkers (c1 :: c2 :: rest) = countMarkers (c2 :: rest) := by
      rw [countMarkers, if_neg hm]
    rw [hcount] at hn h
    rw [replacePlaceholdersAux, if_neg hm, ih i hn h]

theorem specVars_eq_enum_take (args : List GoValue) (n : Nat) (h : n ≤ args.length) :
    specVars args 0 n = (args.take n).enum := by
  have hlen1 : ∀ m i, (specVars args i m).length = m := by
    intro m
    induction m with
    | zero => intro i; rfl
    | succ k ih => intro i; simp [specVars, ih]
  have hgen : ∀ m i k, i + m ≤ args.length → ∀ hk2 : k < (specVars args i m).length,
      (specVars args i m)[k] = (i + k, args.getD (i + k) (GoValue.other "<nil>")) := by
    intro m
    induction m with
    | zero => intro i k _ hk2; rw [hlen1] at hk2; omega
    | succ mm ih =>
      intro i k hle hk2
      cases k with
      | zero => simp [specVars]
      | succ kk =>
        have hk3 : kk < (specVars args (i + 1) mm).length := by
          rw [hlen1 mm (i + 1)]
          rw [hlen1 (mm + 1) i] at hk2
          omega
        have hle2 : i + 1 + mm ≤ args.length := by omega
        simp only [specVars, List.getElem_cons_succ]
        rw [ih (i + 1) kk hle2 hk3]
        have harith : i + 1 + kk = i + (kk + 1) := by omega
        rw [harith]
  apply List.ext_getElem
  · rw [hlen1]
    simp [List.length_take]
    omega
  · intro k hk1 hk2
    have hk : k < n := by rw [hlen1] at hk1; exact hk1
    rw [hgen n 0 k (by omega) hk1]
    simp only [Nat.zero_add]
    have hkt : k < (args.take n).length := by simp [List.length_take]; omega
    rw [List.getElem_enum]
    have htk : (args.take n)[k] = args[k] := List.getElem_take ..
    rw [htk]
    have hkl : k < args.length := by omega
    rw [List.getD_eq_getElem?_getD, List.getElem?_eq_getElem hkl]
    simp

/-! ### Claim C10 -/

/-- C10: placeholder replacement is total exactly when the text contains no
more `??` markers than there are collected argument values (a text with
more markers indexes past the end of the argument list, the modelled
panic); on success the markers are replaced strictly left to right, the
i-th marker by the reference the transform produces at index i (for the
transform of `ToDQL`, `$0, $1, …`), and the variable table receives exactly
the first `countMarkers` arguments — arguments beyond the number of markers
are silently omitted. -/
theorem replacePlaceholders_spec (query : String) (args : List GoValue)
    (t : Nat → GoValue → String) :
    ((replacePlaceholders query args t).isSome ↔ countMarkers query.data ≤ args.length) ∧
    (∀ out vars, replacePlaceholders query args t = some (out, vars) →
      vars = (args.take (countMarkers query.data)).enum ∧
      out.data = interleaveParts t args (splitMarkers query.data) 0) := by
  constructor
  · constructor
    · intro hsome
      by_contra hgt
      push_neg at hgt
      have hn0 : countMarkers query.data ≠ 0 := by omega
      have hnone := replacePlaceholdersAux_eq_none t query.data args 0 hn0 (by omega)
      unfold replacePlaceholders at hsome
      rw [hnone] at hsome
      simp at hsome
    · intro hle
      unfold replacePlaceholders
      rw [replacePlaceholdersAux_eq_some t query.data args 0 (by omega)]
      simp
  · intro out vars hsome
    unfold replacePlaceholders at hsome
    by_cases hle : countMarkers query.data ≤ args.length
    · rw [replacePlaceholdersAux_eq_some t query.data args 0 (by omega)] at hsome
      simp only [Option.some.injEq, Prod.mk.injEq] at hsome
      obtain ⟨hout, hvars⟩ := hsome
      constructor
      · rw [← hvars, specVars_eq_enum_take args (countMarkers query.data) hle]
      · rw [← hout]
    · exfalso
      have hn0 : countMarkers query.data ≠ 0 := by omega
      rw [replacePlaceholdersAux_eq_none t query.data args 0 hn0 (by omega)] at hsome
      simp at hsome

/-- Witness for C10 at a concrete input: two markers, three arguments. -/
theorem replacePlaceholders_spec_witness :
    ([(0, GoValue.str "x"), (1, GoValue.int 3)] : List (Nat × GoValue)) =
      (([GoValue.str "x", GoValue.int 3, GoValue.bool true].take
        (countMarkers ("n ?? a ??" : String).data)).enum) ∧
    ("n $0 a $1" : String).data =
      interleaveParts dollarTransform [GoValue.str "x", GoValue.int 3, GoValue.bool true]
        (splitMarkers ("n ?? a ??" : String).data) 0 :=
  (replacePlaceholders_spec "n ?? a ??" [GoValue.str "x", GoValue.int 3, GoValue.bool true]
    dollarTransform).2 "n $0 a $1" [(0, GoValue.str "x"), (1, GoValue.int 3)] rfl

/-! ### Claim C4 -/

/-- C4 counterexample: `int16` is a fixed-width signed integer, but the
inferred wire type is `"string"` (the default), not `"int"` — the type
switch omits `int16`. -/
theorem goTypeToDQLType_int16_cex :
    goTypeToDQLType (.int16 7) = "string" ∧ goTypeToDQLType (.int16 7) ≠ "int" := by
  exact ⟨rfl, by decide⟩

/-- C4 amended: the category table, with `int16` falling through to the
default `"string"` case: strings infer `"string"`; the signed integers
`int, int8, int32, int64` infer `"int"`; floating point infers `"float"`;
booleans infer `"bool"`; date/time values infer `"datetime"`; everything
else — including `int16` — defaults to `"string"`. -/
theorem goTypeToDQLType_category_table :
    (∀ s, goTypeToDQLType (.str s) = "string") ∧
    (∀ i, goTypeToDQLType (.int i) = "int") ∧
    (∀ i, goTypeToDQLType (.int8 i) = "int") ∧
    (∀ i, goTypeToDQLType (.int32 i) = "int") ∧
    (∀ i, goTypeToDQLType (.int64 i) = "int") ∧
    (∀ i, goTypeToDQLType (.int16 i) = "string") ∧
    (∀ p, goTypeToDQLType (.float32 p) = "float") ∧
    (∀ p, goTypeToDQLType (.float64 p) = "float") ∧
    (∀ b, goTypeToDQLType (.bool b) = "bool") ∧
    (∀ t, goTypeToDQLType (.time t) = "datetime") ∧
    (∀ t, goTypeToDQLType (.ptrTime t) = "datetime") ∧
    (∀ p, goTypeToDQLType (.other p) = "string") :=
  ⟨fun _ => rfl, fun _ => rfl, fun _ => rfl, fun _ => rfl, fun _ => rfl, fun _ => rfl,
   fun _ => rfl, fun _ => rfl, fun _ => rfl, fun _ => rfl, fun _ => rfl, fun _ => rfl⟩

/-! ### Claim C7 -/

/-- C7: compilation is a pure function of the query list — compiling equal
inputs twice yields byte-identical query text, equal variable maps, and
equal error outcomes; there is no shared mutable state in the model. -/
theorem QueriesToDQL_deterministic (qs1 qs2 : List QueryBuilder) (h : qs1 = qs2) :
    QueriesToDQL qs1 = QueriesToDQL qs2 := by
  rw [h]

/-- Witness for C7 at a concrete input. -/
theorem QueriesToDQL_deterministic_witness :
    ([⟨⟨"person", .ok ("person(func: uid(??)) \x7b uid \x7d", [.str "0x1"])⟩, [], none⟩]
        : List QueryBuilder) =
      [⟨⟨"person", .ok ("person(func: uid(??)) \x7b uid \x7d", [.str "0x1"])⟩, [], none⟩] ∧
    QueriesToDQL
        [⟨⟨"person", .ok ("person(func: uid(??)) \x7b uid \x7d", [.str "0x1"])⟩, [], none⟩] =
      QueriesToDQL
        [⟨⟨"person", .ok ("person(func: uid(??)) \x7b uid \x7d", [.str "0x1"])⟩, [], none⟩] :=
  ⟨rfl, QueriesToDQL_deterministic _ _ rfl⟩

/-! ### Claim C1, counterexample -/

/-- C1 counterexample: with input names `["a_2", "a", "a"]` the third entry
collides with the second and is renamed to `"a_2"`, which equals the first
(untouched) name, so the resulting top-level names are not pairwise
distinct. -/
theorem ensureUniqueQueryNames_not_unique_cex :
    (ensureUniqueQueryNames
        [⟨⟨"a_2", .ok ("", [])⟩, [], none⟩, ⟨⟨"a", .ok ("", [])⟩, [], none⟩,
         ⟨⟨"a", .ok ("", [])⟩, [], none⟩]).map (fun q => q.rootEdge.name) =
      ["a_2", "a", "a_2"] ∧
    ¬ ((ensureUniqueQueryNames
        [⟨⟨"a_2", .ok ("", [])⟩, [], none⟩, ⟨⟨"a", .ok ("", [])⟩, [], none⟩,
         ⟨⟨"a", .ok ("", [])⟩, [], none⟩]).map (fun q => q.rootEdge.name)).Nodup := by
  have h : (ensureUniqueQueryNames
      [⟨⟨"a_2", .ok ("", [])⟩, [], none⟩, ⟨⟨"a", .ok ("", [])⟩, [], none⟩,
       ⟨⟨"a", .ok ("", [])⟩, [], none⟩]).map (fun q => q.rootEdge.name) =
      ["a_2", "a", "a_2"] := rfl
  refine ⟨h, ?_⟩
  rw [h]
  decide

/-! ### Claim C2 (code bug): the compile error of the attached queries is
silently dropped by the mutation path -/

/-- C2: evaluation of the request assembly at a failing input.  The single
attached query fails to compile (`QueriesToDQL` reports the error
`"attached query failed to compile"`), yet `ExecuteMutations` assembles and
sends a request with empty query text instead of returning the error: in
the source, the `err` returned by `QueriesToDQL` is bound but never
examined before being overwritten by the transaction call. -/
theorem executeMutations_swallows_compile_error :
    QueriesToDQL [⟨⟨"person", .error "attached query failed to compile"⟩, [], none⟩] =
      some ("", none, some "attached query failed to compile") ∧
    executeMutationsAssemble true false false
        [⟨none, none, none, ⟨⟨"person", .error "attached query failed to compile"⟩, [], none⟩⟩] =
      .assembled ⟨"", none, false, false, [⟨none, none, "", false⟩], false⟩ :=
  ⟨rfl, rfl⟩

/-! ### Claim C3, counterexample -/

/-- C3 counterexample: two queries with destinations, both of whose decodes
fail.  The result is the first error alone; replacing the second (failing)
destination by a succeeding one yields the same result, so the second
failure is neither decoded past nor surfaced — there is no aggregate
error. -/
theorem toResponse_no_aggregate_cex :
    toResponse ⟨.ok [("a", .str "1"), ("b", .str "2")]⟩
        [⟨⟨"a", .ok ("", [])⟩, [], some fun _ => .error "decode a failed"⟩,
         ⟨⟨"b", .ok ("", [])⟩, [], some fun _ => .error "decode b failed"⟩] =
      .error "decode a failed" ∧
    toResponse ⟨.ok [("a", .str "1"), ("b", .str "2")]⟩
        [⟨⟨"a", .ok ("", [])⟩, [], some fun _ => .error "decode a failed"⟩,
         ⟨⟨"b", .ok ("", [])⟩, [], some fun _ => .ok ()⟩] =
      .error "decode a failed" :=
  ⟨rfl, rfl⟩

/-! ### Claim C8, counterexample -/

/-- C8 counterexample: a date/time value with a non-zero sub-second part
does not round trip: the wire format has second precision, so decoding the
encoded text yields the instant truncated to whole seconds, not the
original instant. -/
theorem rfc3339_roundtrip_cex :
    parseRFC3339 (toVariableValue (.time ⟨2021, 1, 2, 0, 0, 0, 500000000⟩)) =
      some ⟨2021, 1, 2, 0, 0, 0, 0⟩ ∧
    parseRFC3339 (toVariableValue (.time ⟨2021, 1, 2, 0, 0, 0, 500000000⟩)) ≠
      some ⟨2021, 1, 2, 0, 0, 0, 500000000⟩ := by
  have h : parseRFC3339 (toVariableValue (.time ⟨2021, 1, 2, 0, 0, 0, 500000000⟩)) =
      some ⟨2021, 1, 2, 0, 0, 0, 0⟩ := rfl
  refine ⟨h, ?_⟩
  rw [h]
  intro hc
  have := GoTime.mk.injEq 2021 1 2 0 0 0 0 2021 1 2 0 0 0 500000000
  have hfields := Option.some.inj hc
  rw [this] at hfields
  omega

/-! ### Claim C1, amended theorem -/

/-- The unique-name scan at the level of the names alone. -/
def uniqueNamesAux : List String → Nat → List String → List String
  | [], _, _ => []
  | n :: rest, index, seen =>
    let n2 := if n ∈ seen then n ++ "_" ++ toString index else n
    n2 :: uniqueNamesAux rest (index + 1) (n2 :: seen)

theorem ensureUniqueQueryNamesAux_names (qs : List QueryBuilder) (i : Nat) (seen : List String) :
    (ensureUniqueQueryNamesAux qs i seen).map (fun q => q.rootEdge.name) =
      uniqueNamesAux (qs.map fun q => q.rootEdge.name) i seen := by
  induction qs generalizing i seen with
  | nil => rfl
  | cons q rest ih =>
    simp only [ensureUniqueQueryNamesAux, uniqueNamesAux, List.map_cons]
    by_cases hmem : q.rootEdge.name ∈ seen
    · simp only [if_pos hmem, QueryBuilder.Name, List.map_cons, ih]
    · simp only [if_neg hmem, List.map_cons, ih]

theorem uniqueNamesAux_nodup (ns : List String) (i : Nat) (seen : List String)
    (hfresh : ∀ k, k < ns.length → (ns.getD k "" ++ "_" ++ toString (i + k)) ∉ seen)
    (ha : ∀ k, k < ns.length → ∀ l, l < ns.length →
      ns.getD k "" ≠ ns.getD l "" ++ "_" ++ toString (i + l))
    (hb : ∀ k, k < ns.length → ∀ l, l < ns.length → k ≠ l →
      ns.getD k "" ++ "_" ++ toString (i + k) ≠ ns.getD l "" ++ "_" ++ toString (i + l)) :
    (uniqueNamesAux ns i seen).Nodup ∧ ∀ s ∈ uniqueNamesAux ns i seen, s ∉ seen := by
  induction ns generalizing i seen with
  | nil => simp [uniqueNamesAux]
  | cons n rest ih =>
    have hn2 : (if n ∈ seen then n ++ "_" ++ toString i else n) ∉ seen := by
      by_cases hmem : n ∈ seen
      · rw [if_pos hmem]
        have := hfresh 0 (by simp)
        simpa using this
      · rw [if_neg hmem]
        exact hmem
    set n2 := if n ∈ seen then n ++ "_" ++ toString i else n with hn2def
    have hn2cases : n2 = n ∨ n2 = n ++ "_" ++ toString i := by
      rw [hn2def]
      by_cases hmem : n ∈ seen
      · rw [if_pos hmem]; right; rfl
      · rw [if_neg hmem]; left; rfl
    have htail := ih (i + 1) (n2 :: seen)
      (by
        intro k hk
        simp only [List.mem_cons, not_or]
        have harith : i + 1 + k = i + (k + 1) := by omega
        constructor
        · intro heq
          rcases hn2cases with hc | hc
          · have hne := ha 0 (by simp) (k + 1) (by simp; omega)
            simp only [List.getD_cons_zero, List.getD_cons_succ] at hne
            apply hne
            rw [← harith, heq, hc]
          · have hne := hb 0 (by simp) (k + 1) (by simp; omega) (by omega)
            simp only [List.getD_cons_zero, List.getD_cons_succ] at hne
            apply hne
            rw [Nat.add_zero, ← harith, heq, hc]
        · have := hfresh (k + 1) (by simp; omega)
          simp only [List.getD_cons_succ] at this
          rw [harith]
          exact this)
      (by
        intro k hk l hl
        have := ha (k + 1) (by simp; omega) (l + 1) (by simp; omega)
        simp only [List.getD_cons_succ] at this
        have harith : i + (l + 1) = i + 1 + l := by omega
        rw [harith] at this
        exact this)
      (by
        intro k hk l hl hkl
        have := hb (k + 1) (by simp; omega) (l + 1) (by simp; omega) (by omega)
        simp only [List.getD_cons_succ] at this
        have h1 : i + (k + 1) = i + 1 + k := by omega
        have h2 : i + (l + 1) = i + 1 + l := by omega
        rw [h1, h2] at this
        exact this)
    obtain ⟨hnodup, hdisj⟩ := htail
    constructor
    · rw [uniqueNamesAux]
      simp only [List.nodup_cons]
      refine ⟨?_, hnodup⟩
      intro hmem2
      exact (hdisj _ hmem2) (List.mem_cons_self _ _)
    · intro s hs
      rw [uniqueNamesAux] at hs
      simp only [List.mem_cons] at hs
      rcases hs with rfl | hs
      · exact hn2
      · intro hsseen
        exact hdisj s hs (List.mem_cons_of_mem _ hsseen)

theorem uniqueNamesAux_getD (ns : List String) (i : Nat) (seen : List String)
    (k : Nat) (hk : k < ns.length) :
    (uniqueNamesAux ns i seen).getD k "" = ns.getD k "" ∨
    (uniqueNamesAux ns i seen).getD k "" = ns.getD k "" ++ "_" ++ toString (i + k) := by
  induction ns generalizing i seen k with
  | nil => simp at hk
  | cons n rest ih =>
    cases k with
    | zero =>
      rw [uniqueNamesAux]
      simp only [List.getD_cons_zero]
      by_cases hmem : n ∈ seen
      · right; rw [if_pos hmem, Nat.add_zero]
      · left; rw [if_neg hmem]
    | succ kk =>
      rw [uniqueNamesAux]
      simp only [List.getD_cons_succ]
      have := ih (i + 1) ((if n ∈ seen then n ++ "_" ++ toString i else n) :: seen) kk
        (by simp at hk; omega)
      rcases this with hc | hc
      · left; exact hc
      · right
        rw [hc]
        have harith : i + 1 + kk = i + (kk + 1) := by omega
        rw [harith]

theorem uniqueNamesAux_first_occurrence (ns : List String) (i : Nat) (seen : List String)
    (k : Nat) (hk : k < ns.length)
    (hfirst : ∀ j, j < k → ns.getD j "" ≠ ns.getD k "")
    (hseen : ns.getD k "" ∉ seen)
    (hren : ∀ j, j < k → ns.getD k "" ≠ ns.getD j "" ++ "_" ++ toString (i + j)) :
    (uniqueNamesAux ns i seen).getD k "" = ns.getD k "" := by
  induction ns generalizing i seen k with
  | nil => simp at hk
  | cons n rest ih =>
    cases k with
    | zero =>
      rw [uniqueNamesAux]
      simp only [List.getD_cons_zero] at hseen ⊢
      rw [if_neg hseen]
    | succ kk =>
      rw [uniqueNamesAux]
      simp only [List.getD_cons_succ] at hseen ⊢
      apply ih (i + 1) _ kk (by simp at hk; omega)
      · intro j hj
        have := hfirst (j + 1) (by omega)
        simpa using this
      · simp only [List.mem_cons, not_or]
        refine ⟨?_, hseen⟩
        by_cases hmem : n ∈ seen
        · rw [if_pos hmem]
          have hne := hren 0 (by omega)
          simp only [List.getD_cons_zero, List.getD_cons_succ, Nat.add_zero] at hne
          exact fun heq => hne heq
        · rw [if_neg hmem]
          have := hfirst 0 (by omega)
          simp only [List.getD_cons_zero, List.getD_cons_succ] at this
          exact fun heq => this heq.symm
      · intro j hj
        have := hren (j + 1) (by omega)
        simp only [List.getD_cons_succ] at this
        have harith : i + (j + 1) = i + 1 + j := by omega
        rw [harith] at this
        exact this

/-- C1 amended: the renaming is deterministic (a colliding entry gets its
positional index appended, and nothing else changes a name) and, provided
that no input name coincides with another entry name with its positional
index appended and that no two index-appended names coincide, all
top-level names are pairwise distinct after the scan and the first
occurrence of any name is never altered.  Without that freshness proviso
the scan can emit duplicate names and rename a first occurrence, see the
counterexample. -/
theorem ensureUniqueQueryNames_spec (queries : List QueryBuilder)
    (ha : ∀ k, k < queries.length → ∀ l, l < queries.length →
      (queries.map fun q => q.rootEdge.name).getD k "" ≠
        (queries.map fun q => q.rootEdge.name).getD l "" ++ "_" ++ toString l)
    (hb : ∀ k, k < queries.length → ∀ l, l < queries.length → k ≠ l →
      (queries.map fun q => q.rootEdge.name).getD k "" ++ "_" ++ toString k ≠
        (queries.map fun q => q.rootEdge.name).getD l "" ++ "_" ++ toString l) :
    ((ensureUniqueQueryNames queries).map fun q => q.rootEdge.name).Nodup ∧
    (∀ k, k < queries.length →
      ((ensureUniqueQueryNames queries).map fun q => q.rootEdge.name).getD k "" =
          (queries.map fun q => q.rootEdge.name).getD k "" ∨
      ((ensureUniqueQueryNames queries).map fun q => q.rootEdge.name).getD k "" =
          (queries.map fun q => q.rootEdge.name).getD k "" ++ "_" ++ toString k) ∧
    (∀ k, k < queries.length →
      (∀ j, j < k → (queries.map fun q => q.rootEdge.name).getD j "" ≠
        (queries.map fun q => q.rootEdge.name).getD k "") →
      ((ensureUniqueQueryNames queries).map fun q => q.rootEdge.name).getD k "" =
        (queries.map fun q => q.rootEdge.name).getD k "") := by
  have hlen : (queries.map fun q => q.rootEdge.name).length = queries.length := by simp
  rw [ensureUniqueQueryNames, ensureUniqueQueryNamesAux_names]
  have ha0 : ∀ k, k < (queries.map fun q => q.rootEdge.name).length →
      ∀ l, l < (queries.map fun q => q.rootEdge.name).length →
      (queries.map fun q => q.rootEdge.name).getD k "" ≠
        (queries.map fun q => q.rootEdge.name).getD l "" ++ "_" ++ toString (0 + l) := by
    intro k hk l hl
    rw [hlen] at hk hl
    have := ha k hk l hl
    have harith : (0 : Nat) + l = l := by omega
    rw [harith]
    exact this
  refine ⟨?_, ?_, ?_⟩
  · exact (uniqueNamesAux_nodup (queries.map fun q => q.rootEdge.name) 0 []
      (by intro k hk; simp) ha0
      (by
        intro k hk l hl hkl
        rw [hlen] at hk hl
        have := hb k hk l hl hkl
        have h1 : (0 : Nat) + k = k := by omega
        have h2 : (0 : Nat) + l = l := by omega
        rw [h1, h2]
        exact this)).1
  · intro k hk
    have := uniqueNamesAux_getD (queries.map fun q => q.rootEdge.name) 0 [] k (by omega)
    rcases this with hc | hc
    · left; exact hc
    · right
      rw [hc]
      have harith : (0 : Nat) + k = k := by omega
      rw [harith]
  · intro k hk hfirst
    apply uniqueNamesAux_first_occurrence (queries.map fun q => q.rootEdge.name) 0 [] k (by omega)
      hfirst (by simp)
    intro j hj
    exact ha0 k (by omega) j (by omega)

/-- Witness for the C1 amended theorem at a concrete input: names
`["a", "a", "b"]` satisfy the freshness proviso; the scan yields
`["a", "a_1", "b"]`, which is pairwise distinct. -/
theorem ensureUniqueQueryNames_spec_witness :
    ((ensureUniqueQueryNames
        [⟨⟨"a", .ok ("", [])⟩, [], none⟩, ⟨⟨"a", .ok ("", [])⟩, [], none⟩,
         ⟨⟨"b", .ok ("", [])⟩, [], none⟩]).map fun q => q.rootEdge.name).Nodup ∧
    ((ensureUniqueQueryNames
        [⟨⟨"a", .ok ("", [])⟩, [], none⟩, ⟨⟨"a", .ok ("", [])⟩, [], none⟩,
         ⟨⟨"b", .ok ("", [])⟩, [], none⟩]).map fun q => q.rootEdge.name) = ["a", "a_1", "b"] := by
  constructor
  · exact (ensureUniqueQueryNames_spec
      [⟨⟨"a", .ok ("", [])⟩, [], none⟩, ⟨⟨"a", .ok ("", [])⟩, [], none⟩,
       ⟨⟨"b", .ok ("", [])⟩, [], none⟩]
      (by decide) (by decide)).1
  · rfl

/-! ### Claim C3, amended theorem -/

/-- The zero value of a `QueryBuilder`, used as the `getD` default. -/
def qbDefault : QueryBuilder := ⟨⟨"", .ok ("", [])⟩, [], none⟩

/-- What one iteration of the decode loop does for one query: nothing
without a destination, otherwise decode the value at the key path given by
the (possibly renamed) query name. -/
def decodeStep (resp : ApiResponse) (q : QueryBuilder) : Except Err Unit :=
  match q.unmarshalInto with
  | none => .ok ()
  | some dest => Response.Unmarshal { Raw := resp, dataKeyPath := q.rootEdge.name } dest

theorem toResponseLoop_first_error (resp : ApiResponse) (e : Err) :
    ∀ (qs : List QueryBuilder) (k : Nat), k < qs.length →
    (∀ j, j < k → decodeStep resp (qs.getD j qbDefault) = .ok ()) →
    decodeStep resp (qs.getD k qbDefault) = .error e →
    toResponseLoop resp qs = .error e := by
  intro qs
  induction qs with
  | nil => intro k hk; simp at hk
  | cons q rest ih =>
    intro k hk hprev herr
    cases k with
    | zero =>
      simp only [List.getD_cons_zero] at herr
      cases hm : q.unmarshalInto with
      | none =>
        simp only [decodeStep, hm] at herr
        exact Except.noConfusion herr
      | some dest =>
        simp only [decodeStep, hm] at herr
        simp only [toResponseLoop, hm, herr]
    | succ kk =>
      simp only [List.getD_cons_succ] at herr
      have hq0 := hprev 0 (by omega)
      simp only [List.getD_cons_zero] at hq0
      have htail := ih kk (by simp at hk; omega)
        (by
          intro j hj
          have := hprev (j + 1) (by omega)
          simpa using this)
        herr
      cases hm : q.unmarshalInto with
      | none =>
        simp only [toResponseLoop, hm]
        exact htail
      | some dest =>
        simp only [decodeStep, hm] at hq0
        simp only [toResponseLoop, hm, hq0]
        exact htail

/-- C3 amended: each destination is decoded using the key path given by its
own (unique-name-adjusted) query name, in order; the loop stops at the
first decode failure and returns that single error to the caller —
remaining destinations are not decoded and no aggregate error is built. -/
theorem toResponse_first_decode_error (resp : ApiResponse) (queries : List QueryBuilder)
    (k : Nat) (e : Err) (hk : k < (ensureUniqueQueryNames queries).length)
    (hprev : ∀ j, j < k →
      decodeStep resp ((ensureUniqueQueryNames queries).getD j qbDefault) = .ok ())
    (herr : decodeStep resp ((ensureUniqueQueryNames queries).getD k qbDefault) = .error e) :
    toResponse resp queries = .error e := by
  have hl := toResponseLoop_first_error resp e (ensureUniqueQueryNames queries) k hk hprev herr
  simp only [toResponse, hl]

/-- Witness for the C3 amended theorem: the first destination decodes
successfully, the second fails; the call returns exactly the second
failure. -/
theorem toResponse_first_decode_error_witness :
    decodeStep ⟨.ok [("a", .str "1"), ("b", .str "2")]⟩
        ((ensureUniqueQueryNames
          [⟨⟨"a", .ok ("", [])⟩, [], some fun _ => .ok ()⟩,
           ⟨⟨"b", .ok ("", [])⟩, [], some fun _ => .error "decode b failed"⟩]).getD 1 qbDefault) =
      .error "decode b failed" ∧
    toResponse ⟨.ok [("a", .str "1"), ("b", .str "2")]⟩
        [⟨⟨"a", .ok ("", [])⟩, [], some fun _ => .ok ()⟩,
         ⟨⟨"b", .ok ("", [])⟩, [], some fun _ => .error "decode b failed"⟩] =
      .error "decode b failed" := by
  refine ⟨rfl, ?_⟩
  apply toResponse_first_decode_error _ _ 1 _ (by decide)
  · intro j hj
    have hj0 : j = 0 := by omega
    subst hj0
    rfl
  · rfl

/-! ### Claim C9 -/

/-- The zero value of a `MutationBuilder`, used as the `getD` default. -/
def mbDefault : MutationBuilder := ⟨none, none, none, qbDefault⟩

/-- The zero value of an `api.Mutation`, used as the `getD` default. -/
def amDefault : ApiMutation := ⟨none, none, "", false⟩

/-- The variable map placed in the outer wire request, as a function of the
attached queries alone (with the semantically-empty clearing applied). -/
def requestVars (qs : List QueryBuilder) : Option (List (String × String)) :=
  match QueriesToDQL qs with
  | none => none
  | some (q, vs, _e) => if IsEmptyQuery q then none else vs

theorem buildMutationRequests_cons (cn : Bool) (m : MutationBuilder)
    (rest : List MutationBuilder) (reqs : List ApiMutation)
    (h : buildMutationRequests cn (m :: rest) = .ok reqs) :
    ∃ cond setD delD rr, buildMutationRequests cn rest = .ok rr ∧
      reqs = (⟨setD, delD, cond, cn⟩ : ApiMutation) :: rr ∧
      ∀ op t args, m.condition = some op → op.dql = .ok (t, args) → cond = t := by
  rw [buildMutationRequests] at h
  cases hc : m.condition with
  | none =>
    simp only [hc] at h
    cases hmd : mutationData m with
    | error e =>
      simp only [hmd] at h
      exact Except.noConfusion h
    | ok sd =>
      obtain ⟨setD, delD⟩ := sd
      simp only [hmd] at h
      cases hrest : buildMutationRequests cn rest with
      | error e =>
        simp only [hrest] at h
        exact Except.noConfusion h
      | ok rr =>
        simp only [hrest, Except.ok.injEq] at h
        refine ⟨"", setD, delD, rr, rfl, h.symm, ?_⟩
        intro op t args hop
        exact Option.noConfusion hop
  | some c =>
    cases hd : c.dql with
    | error e =>
      simp only [hc, hd] at h
      exact Except.noConfusion h
    | ok p =>
      obtain ⟨ct, ca⟩ := p
      simp only [hc, hd] at h
      cases hmd : mutationData m with
      | error e =>
        simp only [hmd] at h
        exact Except.noConfusion h
      | ok sd =>
        obtain ⟨setD, delD⟩ := sd
        simp only [hmd] at h
        cases hrest : buildMutationRequests cn rest with
        | error e =>
          simp only [hrest] at h
          exact Except.noConfusion h
        | ok rr =>
          simp only [hrest, Except.ok.injEq] at h
          refine ⟨ct, setD, delD, rr, rfl, h.symm, ?_⟩
          intro op t args hop hdq
          obtain rfl := Option.some.inj hop
          have hpair := Except.ok.inj (hd.symm.trans hdq)
          exact congrArg Prod.fst hpair

theorem buildMutationRequests_cond (cn : Bool) :
    ∀ (ms : List MutationBuilder) (reqs : List ApiMutation),
    buildMutationRequests cn ms = .ok reqs →
    ∀ k, k < ms.length → ∀ op t args, (ms.getD k mbDefault).condition = some op →
    op.dql = .ok (t, args) → (reqs.getD k amDefault).cond = t := by
  intro ms
  induction ms with
  | nil => intro reqs h k hk; simp at hk
  | cons m rest ih =>
    intro reqs h k hk op t args hcond hdql
    obtain ⟨cond, setD, delD, rr, hrest, hreqs, hcondeq⟩ :=
      buildMutationRequests_cons cn m rest reqs h
    subst hreqs
    cases k with
    | zero =>
      simp only [List.getD_cons_zero] at hcond ⊢
      exact hcondeq op t args hcond hdql
    | succ kk =>
      simp only [List.getD_cons_succ] at hcond ⊢
      exact ih rr hrest kk (by simp at hk; omega) op t args hcond hdql

/-- C9: the argument values of a compiled mutation condition are discarded:
the condition text is placed verbatim in the mutation record (placeholder
markers and all, none replaced), and the variable map of the outer request
is a function of the attached queries alone — condition arguments never
enter it. -/
theorem executeMutations_condition_args_dropped
    (tnxPresent readOnly bestEffort : Bool) (ms : List MutationBuilder) (req : ApiRequest)
    (h : executeMutationsAssemble tnxPresent readOnly bestEffort ms = .assembled req) :
    (∀ k, k < ms.length → ∀ op t args, (ms.getD k mbDefault).condition = some op →
      op.dql = .ok (t, args) → (req.mutations.getD k amDefault).cond = t) ∧
    req.reqVars = requestVars (ms.map fun m => m.query) := by
  rw [executeMutationsAssemble] at h
  cases hbr : buildMutationRequests (!tnxPresent) ms with
  | error e =>
    rw [hbr] at h
    exact ExecOutcome.noConfusion h
  | ok mrs =>
    rw [hbr] at h
    cases hq : QueriesToDQL (ms.map fun m => m.query) with
    | none =>
      rw [hq] at h
      exact ExecOutcome.noConfusion h
    | some r =>
      obtain ⟨q, vs, er⟩ := r
      rw [hq] at h
      simp only [ExecOutcome.assembled.injEq] at h
      constructor
      · intro k hk op t args hcond hdql
        have hmut : req.mutations = mrs := by rw [← h]
        rw [hmut]
        exact buildMutationRequests_cond (!tnxPresent) ms mrs hbr k hk op t args hcond hdql
      · rw [requestVars, hq, ← h]

/-- Witness for C9: the condition compiles to text with an unreplaced `??`
marker and one argument; the assembled record carries the text verbatim and
the request variable map comes from the attached query alone. -/
theorem executeMutations_condition_args_dropped_witness :
    executeMutationsAssemble true false false
        [⟨some ⟨"c", .ok ("@if(eq(name, ??))", [.str "x"])⟩, none, none,
          ⟨⟨"person", .ok ("person", [])⟩, [], none⟩⟩] =
      .assembled ⟨"query Person() \x7b person \x7d", some [], false, false,
        [⟨none, none, "@if(eq(name, ??))", false⟩], false⟩ ∧
    ((⟨"query Person() \x7b person \x7d", some [], false, false,
        [⟨none, none, "@if(eq(name, ??))", false⟩], false⟩ : ApiRequest).mutations.getD 0
      amDefault).cond = "@if(eq(name, ??))" ∧
    (⟨"query Person() \x7b person \x7d", some [], false, false,
        [⟨none, none, "@if(eq(name, ??))", false⟩], false⟩ : ApiRequest).reqVars =
      requestVars [⟨⟨"person", .ok ("person", [])⟩, [], none⟩] := by
  have h : executeMutationsAssemble true false false
      [⟨some ⟨"c", .ok ("@if(eq(name, ??))", [.str "x"])⟩, none, none,
        ⟨⟨"person", .ok ("person", [])⟩, [], none⟩⟩] =
      .assembled ⟨"query Person() \x7b person \x7d", some [], false, false,
        [⟨none, none, "@if(eq(name, ??))", false⟩], false⟩ := rfl
  have hthm := executeMutations_condition_args_dropped true false false _ _ h
  refine ⟨h, ?_, ?_⟩
  · exact hthm.1 0 (by decide) ⟨"c", .ok ("@if(eq(name, ??))", [.str "x"])⟩
      "@if(eq(name, ??))" [.str "x"] rfl rfl
  · have := hthm.2
    simpa using this

/-! ### Claim C6 -/

/-- The compiled text of an operation (its compile outcome on success). -/
def opText (o : Operation) : String :=
  match o.dql with
  | .ok p => p.1
  | .error _ => ""

/-- The collected argument values of an operation (on success). -/
def opArgs (o : Operation) : List GoValue :=
  match o.dql with
  | .ok p => p.2
  | .error _ => []

/-- The root operations of the (unique-name-adjusted) queries, in order. -/
def queryRoots (queries : List QueryBuilder) : List Operation :=
  (ensureUniqueQueryNames queries).map fun q => q.rootEdge

/-- The auxiliary variable operations of all queries, in order. -/
def queryVarOps (queries : List QueryBuilder) : List Operation :=
  ((ensureUniqueQueryNames queries).map fun q => q.vars).flatten

/-- The concatenated compiled body before placeholder replacement: first
every auxiliary variable fragment, then every root fragment, joined by
single spaces. -/
def queryInnerText (queries : List QueryBuilder) : String :=
  String.intercalate " " ((queryVarOps queries).map opText ++ (queryRoots queries).map opText)

/-- All collected argument values, in compilation order. -/
def queryArgsList (queries : List QueryBuilder) : List GoValue :=
  ((queryVarOps queries).map opArgs).flatten ++ ((queryRoots queries).map opArgs).flatten

theorem addStatement_ok (ops : List Operation) (h : ∀ o ∈ ops, ∃ p, o.dql = .ok p) :
    addStatement ops = .ok (ops.map opText, (ops.map opArgs).flatten) := by
  induction ops with
  | nil => rfl
  | cons o rest ih =>
    obtain ⟨p, hp⟩ := h o (List.mem_cons_self o rest)
    obtain ⟨pt, pa⟩ := p
    rw [addStatement]
    rw [hp, ih (fun o2 ho2 => h o2 (List.mem_cons_of_mem _ ho2))]
    simp [opText, opArgs, hp]

theorem specVars_map_fst (args : List GoValue) :
    ∀ (n i : Nat), (specVars args i n).map Prod.fst = List.range' i n := by
  intro n
  induction n with
  | zero => intro i; rfl
  | succ m ih =>
    intro i
    simp only [specVars, List.map_cons, List.range']
    rw [ih (i + 1)]

theorem getSortedVariables_specVars (args : List GoValue) (n : Nat) :
    getSortedVariables (specVars args 0 n) = List.range n := by
  rw [getSortedVariables, specVars_map_fst args n 0, ← List.range_eq_range']
  exact List.Sorted.insertionSort_eq ((List.pairwise_lt_range n).imp le_of_lt)

theorem lookupRaw_specVars (args : List GoValue) :
    ∀ (n i k : Nat), i ≤ k → k < i + n →
    lookupRaw (specVars args i n) k = args.getD k (.other "<nil>") := by
  intro n
  induction n with
  | zero => intro i k h1 h2; omega
  | succ m ih =>
    intro i k h1 h2
    by_cases hik : i = k
    · subst hik
      rw [specVars, lookupRaw, List.find?_cons_of_pos _ (by simp)]
    · rw [specVars, lookupRaw, List.find?_cons_of_neg _ (by simp [hik]), ← lookupRaw]
      exact ih (i + 1) k (by omega) (by omega)

theorem toVariables_specVars (args : List GoValue) (n : Nat) (_hn : n ≤ args.length) :
    toVariables (specVars args 0 n) =
      ((List.range n).map fun k =>
        ("$" ++ toString k, toVariableValue (args.getD k (.other "<nil>"))),
       (List.range n).map fun k =>
        "$" ++ toString k ++ ":" ++ goTypeToDQLType (args.getD k (.other "<nil>"))) := by
  rw [toVariables, getSortedVariables_specVars]
  have henum : (List.range n).enum = (List.range n).map fun k => (k, k) := by
    apply List.ext_getElem
    · simp
    · intro k hk1 hk2
      simp [List.getElem_enum, List.getElem_range]
  rw [henum, List.map_map, List.map_map]
  refine Prod.ext ?_ ?_ <;>
  · apply List.map_congr_left
    intro k hk
    have hkn : k < n := List.mem_range.mp hk
    simp only [Function.comp_apply]
    rw [lookupRaw_specVars args n 0 k (by omega) (by omega)]

/-- C6: for a successfully compiled set of queries (and enough arguments
for the markers, so no panic), the emitted document is
`query <Name>(<decls>) \x7b <body> \x7d` where `<Name>` is the
underscore-joined title-cased concatenation of the (unique-name-adjusted)
root names, the declarations are `$0:type, $1:type, …` sorted by index over
the collected arguments, and the body is the single-space-joined
concatenation of first every auxiliary variable fragment and then every
root fragment, with the i-th `??` marker replaced by `$i`; the variable map
pairs each `$i` with the printed form of the i-th argument. -/
theorem QueriesToDQL_document_form (queries : List QueryBuilder)
    (hok : ∀ o ∈ queryVarOps queries ++ queryRoots queries, ∃ p, o.dql = .ok p)
    (hm : countMarkers (queryInnerText queries).data ≤ (queryArgsList queries).length) :
    QueriesToDQL queries = some (
      "query " ++
        String.intercalate "_" ((queryRoots queries).map fun o => goTitle (goToLower o.name)) ++
        "(" ++
        String.intercalate ", "
          ((List.range (countMarkers (queryInnerText queries).data)).map fun k =>
            "$" ++ toString k ++ ":" ++
              goTypeToDQLType ((queryArgsList queries).getD k (.other "<nil>"))) ++
        ") \x7b " ++
        (⟨interleaveParts dollarTransform (queryArgsList queries)
            (splitMarkers (queryInnerText queries).data) 0⟩ : String) ++
        " \x7d",
      some ((List.range (countMarkers (queryInnerText queries).data)).map fun k =>
        ("$" ++ toString k, toVariableValue ((queryArgsList queries).getD k (.other "<nil>")))),
      none) := by
  have hvops : ∀ o ∈ queryVarOps queries, ∃ p, o.dql = .ok p :=
    fun o ho => hok o (List.mem_append_left _ ho)
  have hroots : ∀ o ∈ queryRoots queries, ∃ p, o.dql = .ok p :=
    fun o ho => hok o (List.mem_append_right _ ho)
  have h1 := addStatement_ok _ hvops
  have h2 := addStatement_ok _ hroots
  rw [queryVarOps] at h1
  rw [queryRoots] at h2
  have hrp : replacePlaceholders (queryInnerText queries) (queryArgsList queries)
      dollarTransform =
      some (⟨interleaveParts dollarTransform (queryArgsList queries)
              (splitMarkers (queryInnerText queries).data) 0⟩,
            specVars (queryArgsList queries) 0
              (countMarkers (queryInnerText queries).data)) := by
    rw [replacePlaceholders,
      replacePlaceholdersAux_eq_some dollarTransform (queryInnerText queries).data
        (queryArgsList queries) 0 (by omega)]
  rw [queryInnerText, queryVarOps, queryRoots, queryArgsList, queryVarOps, queryRoots] at hrp
  have hv := toVariables_specVars (queryArgsList queries)
    (countMarkers (queryInnerText queries).data) hm
  rw [queryInnerText, queryVarOps, queryRoots] at hv
  rw [queryArgsList, queryVarOps, queryRoots] at hv
  simp only [QueriesToDQL, queryOperation.ToDQL, h1, h2, hrp]
  rw [queryInnerText, queryVarOps, queryRoots, queryArgsList, queryVarOps, queryRoots]
  rw [hv]

/-- Witness for C6 at a concrete input: two queries, the first with one
auxiliary variable operation; one string and one int argument. -/
theorem QueriesToDQL_document_form_witness :
    countMarkers (queryInnerText
        [⟨⟨"person", .ok ("person(func: eq(name, ??)) \x7b name \x7d", [.str "john"])⟩,
          [⟨"pv", .ok ("pv as var(func: has(name))", [])⟩], none⟩,
         ⟨⟨"animal", .ok ("animal(func: eq(age, ??)) \x7b age \x7d", [.int 7])⟩, [],
          none⟩]).data ≤
      (queryArgsList
        [⟨⟨"person", .ok ("person(func: eq(name, ??)) \x7b name \x7d", [.str "john"])⟩,
          [⟨"pv", .ok ("pv as var(func: has(name))", [])⟩], none⟩,
         ⟨⟨"animal", .ok ("animal(func: eq(age, ??)) \x7b age \x7d", [.int 7])⟩, [],
          none⟩]).length ∧
    QueriesToDQL
        [⟨⟨"person", .ok ("person(func: eq(name, ??)) \x7b name \x7d", [.str "john"])⟩,
          [⟨"pv", .ok ("pv as var(func: has(name))", [])⟩], none⟩,
         ⟨⟨"animal", .ok ("animal(func: eq(age, ??)) \x7b age \x7d", [.int 7])⟩, [],
          none⟩] =
      some ("query Person_Animal($0:string, $1:int) \x7b pv as var(func: has(name)) person(func: eq(name, $0)) \x7b name \x7d animal(func: eq(age, $1)) \x7b age \x7d \x7d",
        some [("$0", "john"), ("$1", "7")], none) := by
  refine ⟨by decide, ?_⟩
  refine (QueriesToDQL_document_form _ ?_ (by decide)).trans ?_
  · intro o ho
    have hL : queryVarOps
          [⟨⟨"person", .ok ("person(func: eq(name, ??)) \x7b name \x7d", [.str "john"])⟩,
            [⟨"pv", .ok ("pv as var(func: has(name))", [])⟩], none⟩,
           ⟨⟨"animal", .ok ("animal(func: eq(age, ??)) \x7b age \x7d", [.int 7])⟩, [],
            none⟩] ++
        queryRoots
          [⟨⟨"person", .ok ("person(func: eq(name, ??)) \x7b name \x7d", [.str "john"])⟩,
            [⟨"pv", .ok ("pv as var(func: has(name))", [])⟩], none⟩,
           ⟨⟨"animal", .ok ("animal(func: eq(age, ??)) \x7b age \x7d", [.int 7])⟩, [],
            none⟩] =
        [⟨"pv", .ok ("pv as var(func: has(name))", [])⟩,
         ⟨"person", .ok ("person(func: eq(name, ??)) \x7b name \x7d", [.str "john"])⟩,
         ⟨"animal", .ok ("animal(func: eq(age, ??)) \x7b age \x7d", [.int 7])⟩] := rfl
    rw [hL] at ho
    simp only [List.mem_cons, List.not_mem_nil, or_false] at ho
    rcases ho with rfl | rfl | rfl
    · exact ⟨_, rfl⟩
    · exact ⟨_, rfl⟩
    · exact ⟨_, rfl⟩
  · rfl

/-! ### Claim C8, amended theorem -/

theorem digitVal_decDigit_ball : ∀ k, k < 10 → digitVal (decDigit k) = some k := by decide

theorem digitVal_decDigit_mod (n : Nat) : digitVal (decDigit (n % 10)) = some (n % 10) :=
  digitVal_decDigit_ball (n % 10) (Nat.mod_lt n (by omega))

/-- C8 amended: encoding a date/time value to its textual wire form and
decoding that text back yields the original instant truncated to whole
seconds; in particular the round trip is exact for every representable
instant whose sub-second part is zero (the wire format carries second
precision only, see the counterexample for a fractional instant). -/
theorem rfc3339_roundtrip_whole_seconds (t : GoTime)
    (hy : t.year ≤ 9999) (hmo1 : 1 ≤ t.month) (hmo2 : t.month ≤ 12)
    (hd1 : 1 ≤ t.day) (hd2 : t.day ≤ 31) (hh : t.hour ≤ 23)
    (hmi : t.minute ≤ 59) (hs : t.sec ≤ 59) (hn : t.nsec = 0) :
    parseRFC3339 (toVariableValue (.time t)) = some t := by
  obtain ⟨y, mo, d, h, mi, se, ns⟩ := t
  simp only at hy hmo1 hmo2 hd1 hd2 hh hmi hs hn
  subst hn
  simp only [toVariableValue, formatRFC3339, parseRFC3339, pad4, pad2, List.cons_append,
    List.nil_append, digits2, field2, expectChar, digitVal_decDigit_mod, Option.bind_eq_bind,
    Option.some_bind, if_pos]
  have hy4 : (y / 1000 % 10 * 10 + y / 100 % 10) * 100 + (y / 10 % 10 * 10 + y % 10) = y := by
    omega
  have hmo99 : mo / 10 % 10 * 10 + mo % 10 = mo := by omega
  have hd99 : d / 10 % 10 * 10 + d % 10 = d := by omega
  have hh99 : h / 10 % 10 * 10 + h % 10 = h := by omega
  have hmi99 : mi / 10 % 10 * 10 + mi % 10 = mi := by omega
  have hse99 : se / 10 % 10 * 10 + se % 10 = se := by omega
  rw [hy4, hmo99, hd99, hh99, hmi99, hse99]
  rw [if_pos]
  exact ⟨trivial, hmo1, hmo2, hd1, hd2, hh, hmi, hs⟩

/-- Witness for the C8 amended theorem at a concrete instant. -/
theorem rfc3339_roundtrip_whole_seconds_witness :
    (⟨2021, 1, 2, 13, 4, 5, 0⟩ : GoTime).nsec = 0 ∧
    parseRFC3339 (toVariableValue (.time ⟨2021, 1, 2, 13, 4, 5, 0⟩)) =
      some ⟨2021, 1, 2, 13, 4, 5, 0⟩ :=
  ⟨rfl, rfc3339_roundtrip_whole_seconds ⟨2021, 1, 2, 13, 4, 5, 0⟩ (by decide) (by decide)
    (by decide) (by decide) (by decide) (by decide) (by decide) (by decide) rfl⟩

/-! ### Claim C5 -/

/-- The characters a generated query name can contain when every original
name is empty: underscore and the decimal digits. -/
abbrev nameChar (c : Char) : Prop := c ∈ ('_' :: ("0123456789" : String).data)

theorem nameChar_facts : ∀ c ∈ ('_' :: ("0123456789" : String).data),
    c.toLower = c ∧ c.toUpper = c ∧ c ≠ '\x7b' := by decide

theorem digitChar_nameChar : ∀ k, k < 10 → nameChar (Nat.digitChar k) := by decide

theorem toDigitsCore_nameChar : ∀ (fuel n : Nat) (acc : List Char),
    (∀ c ∈ acc, nameChar c) → ∀ c ∈ Nat.toDigitsCore 10 fuel n acc, nameChar c := by
  intro fuel
  induction fuel with
  | zero => intro n acc hacc; exact hacc
  | succ f ih =>
    intro n acc hacc
    rw [Nat.toDigitsCore]
    have hd : nameChar (Nat.digitChar (n % 10)) :=
      digitChar_nameChar _ (Nat.mod_lt _ (by omega))
    by_cases h0 : n / 10 = 0
    · rw [if_pos h0]
      intro c hc
      rcases List.mem_cons.mp hc with rfl | hc
      · exact hd
      · exact hacc c hc
    · rw [if_neg h0]
      apply ih
      intro c hc
      rcases List.mem_cons.mp hc with rfl | hc
      · exact hd
      · exact hacc c hc

theorem toString_nat_nameChar (n : Nat) : ∀ c ∈ (toString n : String).data, nameChar c := by
  show ∀ c ∈ (Nat.repr n).data, nameChar c
  rw [Nat.repr, Nat.toDigits]
  exact toDigitsCore_nameChar (n + 1) n [] (by intro c hc; simp at hc)

theorem rename_nameChar (nm : String) (idx : Nat) (h : ∀ c ∈ nm.data, nameChar c) :
    ∀ c ∈ (nm ++ "_" ++ toString idx).data, nameChar c := by
  intro c hc
  rw [String.data_append, String.data_append] at hc
  rcases List.mem_append.mp hc with hc | hc
  · rcases List.mem_append.mp hc with hc | hc
    · exact h c hc
    · have : c = '_' := by simpa using hc
      subst this
      exact List.mem_cons_self _ _
  · exact toString_nat_nameChar idx c hc

theorem uniqueNamesAux_nameChar : ∀ (ns : List String) (i : Nat) (seen : List String),
    (∀ nm ∈ ns, ∀ c ∈ nm.data, nameChar c) →
    ∀ nm ∈ uniqueNamesAux ns i seen, ∀ c ∈ nm.data, nameChar c := by
  intro ns
  induction ns with
  | nil => intro i seen h nm hnm; simp [uniqueNamesAux] at hnm
  | cons n rest ih =>
    intro i seen h nm hnm
    rw [uniqueNamesAux] at hnm
    rcases List.mem_cons.mp hnm with rfl | hnm
    · by_cases hmem : n ∈ seen
      · rw [if_pos hmem]
        exact rename_nameChar n i (h n (List.mem_cons_self _ _))
      · rw [if_neg hmem]
        exact h n (List.mem_cons_self _ _)
    · exact ih (i + 1) _ (fun nm2 h2 => h nm2 (List.mem_cons_of_mem _ h2)) nm hnm

theorem goToLower_nameChar (s : String) (h : ∀ c ∈ s.data, nameChar c) :
    ∀ c ∈ (goToLower s).data, nameChar c := by
  intro c hc
  rw [goToLower] at hc
  rcases List.mem_map.mp hc with ⟨c2, hc2, rfl⟩
  have hfacts := nameChar_facts c2 (h c2 hc2)
  rw [hfacts.1]
  exact h c2 hc2

theorem goTitleAux_eq_self : ∀ (cs : List Char) (b : Bool),
    (∀ c ∈ cs, c.toUpper = c) → goTitleAux b cs = cs := by
  intro cs
  induction cs with
  | nil => intro b _; rfl
  | cons c rest ih =>
    intro b h
    rw [goTitleAux]
    have hcu := h c (List.mem_cons_self _ _)
    rw [ih (goIsSeparator c) (fun c2 h2 => h c2 (List.mem_cons_of_mem _ h2))]
    cases b
    · rfl
    · rw [if_pos rfl, hcu]

theorem goTitle_goToLower_nameChar (s : String) (h : ∀ c ∈ s.data, nameChar c) :
    ∀ c ∈ (goTitle (goToLower s)).data, nameChar c := by
  have h2 := goToLower_nameChar s h
  rw [goTitle, goTitleAux_eq_self _ true (fun c hc => (nameChar_facts c (h2 c hc)).2.1)]
  exact h2

theorem intercalate_go_charset (P : Char → Prop) (sep : String)
    (hsep : ∀ c ∈ sep.data, P c) :
    ∀ (ps : List String) (acc : String), (∀ c ∈ acc.data, P c) →
    (∀ p ∈ ps, ∀ c ∈ p.data, P c) →
    ∀ c ∈ (String.intercalate.go acc sep ps).data, P c := by
  intro ps
  induction ps with
  | nil => intro acc hacc _; rw [String.intercalate.go]; exact hacc
  | cons p rest ih =>
    intro acc hacc hps
    rw [String.intercalate.go]
    apply ih
    · intro c hc
      rw [String.data_append, String.data_append] at hc
      rcases List.mem_append.mp hc with hc | hc
      · rcases List.mem_append.mp hc with hc | hc
        · exact hacc c hc
        · exact hsep c hc
      · exact hps p (List.mem_cons_self _ _) c hc
    · exact fun p2 hp2 => hps p2 (List.mem_cons_of_mem _ hp2)

theorem intercalate_charset (P : Char → Prop) (sep : String)
    (hsep : ∀ c ∈ sep.data, P c) (ps : List String)
    (hps : ∀ p ∈ ps, ∀ c ∈ p.data, P c) :
    ∀ c ∈ (String.intercalate sep ps).data, P c := by
  cases ps with
  | nil =>
    intro c hc
    simp only [String.intercalate] at hc
    simp at hc
  | cons a as =>
    rw [String.intercalate]
    exact intercalate_go_charset P sep hsep as a (hps a (List.mem_cons_self _ _))
      (fun p hp => hps p (List.mem_cons_of_mem _ hp))

theorem countMarkers_eq_zero (cs : List Char) (h : ∀ c ∈ cs, c ≠ '?') :
    countMarkers cs = 0 := by
  induction cs using countMarkers.induct with
  | case1 => rfl
  | case2 c => rfl
  | case3 c1 c2 rest hm ih => exact absurd hm.1 (h c1 (List.mem_cons_self _ _))
  | case4 c1 c2 rest hm ih =>
    rw [countMarkers, if_neg hm]
    exact ih fun c hc => h c (List.mem_cons_of_mem _ hc)

theorem replacePlaceholdersAux_no_markers (t : Nat → GoValue → String) :
    ∀ (cs : List Char) (args : List GoValue) (i : Nat), countMarkers cs = 0 →
    replacePlaceholdersAux t cs args i = some (cs, []) := by
  intro cs
  induction cs using countMarkers.induct with
  | case1 => intro args i _; rfl
  | case2 c => intro args i _; rfl
  | case3 c1 c2 rest hm ih =>
    intro args i h
    rw [countMarkers, if_pos hm] at h
    omega
  | case4 c1 c2 rest hm ih =>
    intro args i h
    rw [countMarkers, if_neg hm] at h
    rw [replacePlaceholdersAux, if_neg hm, ih args i h]

theorem map_flatten_nil {α β : Type} (l : List α) (f : α → List β)
    (h : ∀ x ∈ l, f x = []) : (l.map f).flatten = [] := by
  induction l with
  | nil => rfl
  | cons a rest ih =>
    simp only [List.map_cons, List.flatten_cons, h a (List.mem_cons_self _ _),
      List.nil_append]
    exact ih fun x hx => h x (List.mem_cons_of_mem _ hx)

theorem addStatement_trivial (ops : List Operation)
    (h : ∀ o ∈ ops, o.dql = .ok ("", [])) :
    addStatement ops = .ok (List.replicate ops.length "", []) := by
  induction ops with
  | nil => rfl
  | cons o rest ih =>
    rw [addStatement, h o (List.mem_cons_self _ _),
      ih fun o2 h2 => h o2 (List.mem_cons_of_mem _ h2)]
    rfl

theorem euqnAux_map_dql : ∀ (qs : List QueryBuilder) (i : Nat) (seen : List String),
    (ensureUniqueQueryNamesAux qs i seen).map (fun q => q.rootEdge.dql) =
      qs.map fun q => q.rootEdge.dql := by
  intro qs
  induction qs with
  | nil => intro i seen; rfl
  | cons q rest ih =>
    intro i seen
    simp only [ensureUniqueQueryNamesAux, List.map_cons]
    by_cases hmem : q.rootEdge.name ∈ seen
    · simp only [if_pos hmem, QueryBuilder.Name, ih]
    · simp only [if_neg hmem, ih]

theorem euqnAux_map_vars : ∀ (qs : List QueryBuilder) (i : Nat) (seen : List String),
    (ensureUniqueQueryNamesAux qs i seen).map (fun q => q.vars) =
      qs.map fun q => q.vars := by
  intro qs
  induction qs with
  | nil => intro i seen; rfl
  | cons q rest ih =>
    intro i seen
    simp only [ensureUniqueQueryNamesAux, List.map_cons]
    by_cases hmem : q.rootEdge.name ∈ seen
    · simp only [if_pos hmem, QueryBuilder.Name, ih]
    · simp only [if_neg hmem, ih]

theorem dropWhile_append_all (p : Char → Bool) :
    ∀ (l1 l2 : List Char), (∀ c ∈ l1, p c = true) →
    List.dropWhile p (l1 ++ l2) = List.dropWhile p l2 := by
  intro l1
  induction l1 with
  | nil => intro l2 _; rfl
  | cons c rest ih =>
    intro l2 h
    rw [List.cons_append, List.dropWhile_cons, if_pos (h c (List.mem_cons_self _ _))]
    exact ih l2 fun c2 h2 => h c2 (List.mem_cons_of_mem _ h2)

theorem isEmptyQuery_assembled (qn body : String)
    (hqn : ∀ c ∈ qn.data, c ≠ '\x7b') (hbody : ∀ c ∈ body.data, c = ' ') :
    IsEmptyQuery ("query " ++ qn ++ "(" ++ "" ++ ") \x7b " ++ body ++ " \x7d") = true := by
  rw [IsEmptyQuery]
  have hdata : ("query " ++ qn ++ "(" ++ "" ++ ") \x7b " ++ body ++ " \x7d").data =
      ['q', 'u', 'e', 'r', 'y', ' '] ++
        (qn.data ++ ('(' :: ')' :: ' ' ::
          ('\x7b' :: ' ' :: (body.data ++ [' ', '\x7d'])))) := by
    simp only [String.data_append]
    simp [List.append_assoc]
  rw [hdata]
  rw [dropWhile_append_all _ ['q', 'u', 'e', 'r', 'y', ' '] _ (by decide)]
  rw [dropWhile_append_all _ qn.data _
    (by
      intro c hc
      have := hqn c hc
      simpa using this)]
  rw [List.dropWhile_cons, if_pos (by decide), List.dropWhile_cons, if_pos (by decide),
    List.dropWhile_cons, if_pos (by decide), List.dropWhile_cons, if_neg (by decide)]
  rw [List.drop_one, List.tail_cons]
  rw [List.all_cons]
  simp only [Bool.and_eq_true]
  constructor
  · decide
  · rw [List.all_append]
    simp only [Bool.and_eq_true]
    constructor
    · rw [List.all_eq_true]
      intro c hc
      rw [hbody c hc]
      decide
    · decide

/-- C5: in a mutation batch in which no unit contributes a root operation
through its attached query (every attached query has the empty name, an
empty compiled fragment with no arguments, and no auxiliary variable
operations), the assembled wire request carries the empty query text and no
variable map — the degenerate empty query block is detected by
`IsEmptyQuery` and cleared. -/
theorem executeMutations_empty_query_cleared
    (tnxPresent readOnly bestEffort : Bool) (mutations : List MutationBuilder)
    (hemp : ∀ m ∈ mutations, m.query.rootEdge.name = "" ∧
      m.query.rootEdge.dql = .ok ("", []) ∧ m.query.vars = [])
    (req : ApiRequest)
    (h : executeMutationsAssemble tnxPresent readOnly bestEffort mutations = .assembled req) :
    req.query = "" ∧ req.reqVars = none := by
  have hq1 : ∀ q ∈ mutations.map (fun m => m.query), q.rootEdge.name = "" ∧
      q.rootEdge.dql = .ok ("", []) ∧ q.vars = [] := by
    intro q hq
    rcases List.mem_map.mp hq with ⟨m, hm, rfl⟩
    exact hemp m hm
  have hvars : ((ensureUniqueQueryNames (mutations.map fun m => m.query)).map
      (fun q => q.vars)).flatten = ([] : List Operation) := by
    apply map_flatten_nil
    intro q hq
    have hmem : q.vars ∈ (ensureUniqueQueryNames (mutations.map fun m => m.query)).map
        (fun q => q.vars) := List.mem_map_of_mem _ hq
    rw [ensureUniqueQueryNames, euqnAux_map_vars] at hmem
    rcases List.mem_map.mp hmem with ⟨q2, hq2, heq⟩
    rw [← heq, (hq1 q2 hq2).2.2]
  have hdqls : ∀ o ∈ (ensureUniqueQueryNames (mutations.map fun m => m.query)).map
      (fun q => q.rootEdge), o.dql = .ok ("", []) := by
    intro o ho
    rcases List.mem_map.mp ho with ⟨q, hq, rfl⟩
    have hmem : q.rootEdge.dql ∈ (ensureUniqueQueryNames (mutations.map fun m => m.query)).map
        (fun q => q.rootEdge.dql) := List.mem_map_of_mem _ hq
    rw [ensureUniqueQueryNames, euqnAux_map_dql] at hmem
    rcases List.mem_map.mp hmem with ⟨q2, hq2, heq⟩
    rw [← heq, (hq1 q2 hq2).2.1]
  have hnames : ∀ q ∈ ensureUniqueQueryNames (mutations.map fun m => m.query),
      ∀ c ∈ q.rootEdge.name.data, nameChar c := by
    intro q hq
    have hmem : q.rootEdge.name ∈ (ensureUniqueQueryNames (mutations.map fun m => m.query)).map
        (fun q => q.rootEdge.name) := List.mem_map_of_mem _ hq
    rw [ensureUniqueQueryNames, ensureUniqueQueryNamesAux_names] at hmem
    refine uniqueNamesAux_nameChar _ 0 [] ?_ q.rootEdge.name hmem
    intro nm hnm c hc
    rcases List.mem_map.mp hnm with ⟨q2, hq2, heq⟩
    rw [← heq, (hq1 q2 hq2).1] at hc
    simp at hc
  have hAS1 : addStatement ((ensureUniqueQueryNames (mutations.map fun m => m.query)).map
      (fun q => q.vars)).flatten = .ok ([], []) := by
    rw [hvars]
    rfl
  have hAS2 : addStatement ((ensureUniqueQueryNames (mutations.map fun m => m.query)).map
      (fun q => q.rootEdge)) =
      .ok (List.replicate ((ensureUniqueQueryNames (mutations.map fun m => m.query)).map
        (fun q => q.rootEdge)).length "", []) :=
    addStatement_trivial _ hdqls
  have hinner : ∀ c ∈ (String.intercalate " "
      ([] ++ List.replicate ((ensureUniqueQueryNames (mutations.map fun m => m.query)).map
        (fun q => q.rootEdge)).length "")).data, c = ' ' := by
    apply intercalate_charset (fun c => c = ' ') " " (by decide)
    intro p hp
    simp only [List.nil_append] at hp
    rw [List.eq_of_mem_replicate hp]
    intro c hc
    simp at hc
  have hcm : countMarkers (String.intercalate " "
      ([] ++ List.replicate ((ensureUniqueQueryNames (mutations.map fun m => m.query)).map
        (fun q => q.rootEdge)).length "")).data = 0 :=
    countMarkers_eq_zero _ fun c hc => by rw [hinner c hc]; decide
  have hrp : replacePlaceholders (String.intercalate " "
      ([] ++ List.replicate ((ensureUniqueQueryNames (mutations.map fun m => m.query)).map
        (fun q => q.rootEdge)).length "")) ([] ++ []) dollarTransform =
      some (String.intercalate " "
        ([] ++ List.replicate ((ensureUniqueQueryNames (mutations.map fun m => m.query)).map
          (fun q => q.rootEdge)).length ""), []) := by
    rw [replacePlaceholders, replacePlaceholdersAux_no_markers dollarTransform _ _ _ hcm]
  have hqn : ∀ c ∈ (String.intercalate "_"
      (((ensureUniqueQueryNames (mutations.map fun m => m.query)).map
        (fun q => q.rootEdge)).map fun block => goTitle (goToLower block.name))).data,
      c ≠ '\x7b' := by
    intro c hc
    have hall := intercalate_charset nameChar "_" (by decide) _ (by
      intro p hp
      rcases List.mem_map.mp hp with ⟨o, ho, heqo⟩
      rcases List.mem_map.mp ho with ⟨q, hq, heqq⟩
      rw [← heqo, ← heqq]
      exact goTitle_goToLower_nameChar _ (hnames q hq)) c hc
    exact (nameChar_facts c hall).2.2
  have hempty : IsEmptyQuery ("query " ++ String.intercalate "_"
      (((ensureUniqueQueryNames (mutations.map fun m => m.query)).map
        (fun q => q.rootEdge)).map fun block => goTitle (goToLower block.name)) ++
      "(" ++ "" ++ ") \x7b " ++ String.intercalate " "
      ([] ++ List.replicate ((ensureUniqueQueryNames (mutations.map fun m => m.query)).map
        (fun q => q.rootEdge)).length "") ++ " \x7d") = true :=
    isEmptyQuery_assembled _ _ hqn hinner
  have hQ : QueriesToDQL (mutations.map fun m => m.query) =
      some ("query " ++ String.intercalate "_"
        (((ensureUniqueQueryNames (mutations.map fun m => m.query)).map
          (fun q => q.rootEdge)).map fun block => goTitle (goToLower block.name)) ++
        "(" ++ "" ++ ") \x7b " ++ String.intercalate " "
        ([] ++ List.replicate ((ensureUniqueQueryNames (mutations.map fun m => m.query)).map
          (fun q => q.rootEdge)).length "") ++ " \x7d", some [], none) := by
    simp only [QueriesToDQL, queryOperation.ToDQL, hAS1, hAS2, hrp]
    rfl
  rw [executeMutationsAssemble] at h
  cases hbr : buildMutationRequests (!tnxPresent) mutations with
  | error e =>
    rw [hbr] at h
    exact ExecOutcome.noConfusion h
  | ok mrs =>
    rw [hbr, hQ] at h
    simp only [hempty, if_true] at h
    rw [ExecOutcome.assembled.injEq] at h
    constructor
    · rw [← h]
    · rw [← h]

/-- Witness for C5: two mutation units with no attached query content; the
assembled request has empty query text and no variable map. -/
theorem executeMutations_empty_query_cleared_witness :
    executeMutationsAssemble false true true
        [⟨none, none, none, ⟨⟨"", .ok ("", [])⟩, [], none⟩⟩,
         ⟨none, none, none, ⟨⟨"", .ok ("", [])⟩, [], none⟩⟩] =
      .assembled ⟨"", none, true, true,
        [⟨none, none, "", true⟩, ⟨none, none, "", true⟩], true⟩ ∧
    (⟨"", none, true, true, [⟨none, none, "", true⟩, ⟨none, none, "", true⟩], true⟩
      : ApiRequest).query = "" ∧
    (⟨"", none, true, true, [⟨none, none, "", true⟩, ⟨none, none, "", true⟩], true⟩
      : ApiRequest).reqVars = none := by
  have h : executeMutationsAssemble false true true
      [⟨none, none, none, ⟨⟨"", .ok ("", [])⟩, [], none⟩⟩,
       ⟨none, none, none, ⟨⟨"", .ok ("", [])⟩, [], none⟩⟩] =
      .assembled ⟨"", none, true, true,
        [⟨none, none, "", true⟩, ⟨none, none, "", true⟩], true⟩ := rfl
  refine ⟨h, executeMutations_empty_query_cleared false true true _ ?_ _ h⟩
  intro m hm
  simp only [List.mem_cons, List.not_mem_nil, or_false] at hm
  rcases hm with rfl | rfl
  · exact ⟨rfl, rfl, rfl⟩
  · exact ⟨rfl, rfl, rfl⟩
